import Mathlib

/-!
Verification of the retrosai-gamelist catalog browser.

The JavaScript source (script.js together with its two sibling variants) is
shallowly embedded here.  Strings are modelled as `String`/`List Char` over
Unicode scalar values, JS regular-expression replacements are modelled by
recursive functions over character lists, and the external Unicode NFKD
normalizer (`String.prototype.normalize("NFKD")`) is modelled as a
per-character decomposition `decomp` mapped over the string; `decomp` is kept
abstract in the theorems (they hold for every decomposition) and is
instantiated with the identity, its restriction to ASCII, in concrete
computations.  JS `toLowerCase` is modelled on the ASCII range (the claims
that use it are insensitive to the mapping outside it); JS `toUpperCase`,
whose exact behavior the letter filter depends on, is modelled by
`jsUpperChar` with the full Unicode mapping written out for every code point
whose uppercase contains an ASCII letter.
-/

namespace Gamelist

/-- Characters matched by the JS regex class backslash-s (and the set trimmed
by JS trim). -/
def isJsSpace (c : Char) : Bool :=
  c = ' ' || c = '\t' || c = '\n' || c = '\r' || c = '\x0b' || c = '\x0c' ||
  c.toNat = 0xA0 || c.toNat = 0x1680 ||
  (0x2000 ≤ c.toNat && c.toNat ≤ 0x200A) ||
  c.toNat = 0x2028 || c.toNat = 0x2029 || c.toNat = 0x202F ||
  c.toNat = 0x205F || c.toNat = 0x3000 || c.toNat = 0xFEFF

/-- Characters matched by the JS regex dot: any character except a line
terminator. -/
def isDotChar (c : Char) : Bool :=
  !(c = '\n' || c = '\r' || c.toNat = 0x2028 || c.toNat = 0x2029)

/-- The opening brackets of the bracketed-group regex in `preCleanTitle`. -/
def isOpenBracket (c : Char) : Bool := c = '(' || c = '[' || c = '\x7b'

/-- The closing brackets of the bracketed-group regex in `preCleanTitle`. -/
def isCloseBracket (c : Char) : Bool := c = ')' || c = ']' || c = '\x7d'

/-- ASCII lower-case letter or digit: the regex class `[a-z0-9]`. -/
def isSlugAl (c : Char) : Bool :=
  ('a' ≤ c && c ≤ 'z') || ('0' ≤ c && c ≤ '9')

/-- JS `toLowerCase`, modelled on the ASCII range (where it agrees with the
Unicode mapping). -/
def asciiLower (c : Char) : Char :=
  if 'A' ≤ c && c ≤ 'Z' then Char.ofNat (c.toNat + 32) else c

/-- The 17 code points outside a to z whose Unicode full uppercase contains
an ASCII letter A to Z, with their uppercase strings: dotless i U+0131 and
long s U+017F, whose simple uppercase is an ASCII letter (the data of
UnicodeData), and sharp s U+00DF, U+0149, U+01F0, U+1E96 to U+1E9A and the
Latin ligatures U+FB00 to U+FB06, whose full uppercase (SpecialCasing) is a
multi-character string containing one. -/
def upperSpecials : List (Nat × List Char) :=
  [(0x131, ['I']), (0x17F, ['S']),
   (0xDF, ['S', 'S']), (0x149, [Char.ofNat 0x2BC, 'N']),
   (0x1F0, ['J', Char.ofNat 0x30C]), (0x1E96, ['H', Char.ofNat 0x331]),
   (0x1E97, ['T', Char.ofNat 0x308]), (0x1E98, ['W', Char.ofNat 0x30A]),
   (0x1E99, ['Y', Char.ofNat 0x30A]), (0x1E9A, ['A', Char.ofNat 0x2BE]),
   (0xFB00, ['F', 'F']), (0xFB01, ['F', 'I']), (0xFB02, ['F', 'L']),
   (0xFB03, ['F', 'F', 'I']), (0xFB04, ['F', 'F', 'L']),
   (0xFB05, ['S', 'T']), (0xFB06, ['S', 'T'])]

/-- JS `toUpperCase` of a one-character string: the Unicode full uppercase
mapping, written out exactly for every code point whose uppercase contains an
ASCII letter A to Z (the range a to z and the 17 entries of
`upperSpecials`).  Every other character is kept unchanged, which is
behaviorally equivalent for `firstLetterKey`: the true uppercase of such a
character also contains no A-to-Z character, and any candidate key without
one collapses to the bucket "#" whatever its exact characters are. -/
def jsUpperChar (c : Char) : List Char :=
  if 'a' ≤ c && c ≤ 'z' then [Char.ofNat (c.toNat - 32)]
  else
    match upperSpecials.lookup c.toNat with
    | some u => u
    | none => [c]

/-- Concatenated map over a character list (used to model NFKD decomposition
and the replacements of ampersand and plus, which substitute one character by
a word). -/
def concatMap (f : Char → List Char) : List Char → List Char
  | [] => []
  | c :: cs => f c ++ concatMap f cs

/-- `replRunsAux p r inRun l` replaces every maximal run of characters
satisfying `p` in `l` by the single character `r`; `inRun` records whether the
previous character belonged to such a run.  This is JS
`replace(/X+/g, "r")` for a character class `X`. -/
def replRunsAux (p : Char → Bool) (r : Char) : Bool → List Char → List Char
  | _, [] => []
  | inRun, c :: cs =>
    if p c then
      if inRun then replRunsAux p r true cs else r :: replRunsAux p r true cs
    else c :: replRunsAux p r false cs

/-- JS global replacement of maximal `p`-runs by the single character `r`. -/
def replaceRuns (p : Char → Bool) (r : Char) (l : List Char) : List Char :=
  replRunsAux p r false l

/-- JS `replace(/^X+|X+$/g, "")`: drop the leading and the trailing run of
characters satisfying `p` (with `p` the whitespace class this is JS trim,
with the hyphen class it is the hyphen-trimming step of the slug pipeline). -/
def dropEnds (p : Char → Bool) (l : List Char) : List Char :=
  ((l.dropWhile p).reverse.dropWhile p).reverse

/-- JS `String.prototype.trim`. -/
def jsTrim (l : List Char) : List Char := dropEnds isJsSpace l

/-- JS `title.split(" / ")[0]`: the part before the first occurrence of the
three-character separator space-slash-space. -/
def beforeSlashSep : List Char → List Char
  | ' ' :: '/' :: ' ' :: _ => []
  | c :: cs => c :: beforeSlashSep cs
  | [] => []

/-- Non-greedy scan for the first closing bracket, every character before it
being matched by the regex dot; returns the remainder after the closing
bracket. -/
def scanToClose : List Char → Option (List Char)
  | [] => none
  | c :: cs =>
    if isCloseBracket c then some cs
    else if isDotChar c then scanToClose cs else none

/-- One attempted match, at the head of `l`, of the bracketed-group regex of
`preCleanTitle` (optional whitespace, an opening bracket, a non-greedy body,
a closing bracket, optional whitespace); on success returns the remainder of
the string after the match. -/
def matchBracketAt (l : List Char) : Option (List Char) :=
  match l.dropWhile isJsSpace with
  | c :: cs =>
    if isOpenBracket c then
      match scanToClose cs with
      | some rest => some (rest.dropWhile isJsSpace)
      | none => none
    else none
  | [] => none

/-- Left-to-right global replacement of bracketed groups by a single space,
written with the standard fuel pattern: every successful match consumes at
least two characters and every failed position consumes one, so fuel
`l.length` always suffices and the fuel-exhaustion branch is unreachable from
`removeBrackets`. -/
def removeBracketsGo : Nat → List Char → List Char
  | _, [] => []
  | 0, l => l
  | fuel + 1, c :: cs =>
    match matchBracketAt (c :: cs) with
    | some rest => ' ' :: removeBracketsGo fuel rest
    | none => c :: removeBracketsGo fuel cs

/-- JS `replace` of every bracketed group (parentheses, square or curly
brackets, with surrounding whitespace) by a single space. -/
def removeBrackets (l : List Char) : List Char := removeBracketsGo l.length l

/-- JS removal of the trademark, registered and copyright glyphs. -/
def stripMarks (l : List Char) : List Char :=
  l.filter (fun c => !(c = '™' || c = '®' || c = '©'))

/-- `preCleanTitle` from script.js: keep the left side of combined titles,
drop bracketed groups, strip trademark glyphs, collapse whitespace runs to
single spaces, trim. -/
def preCleanL (l : List Char) : List Char :=
  jsTrim (replaceRuns isJsSpace ' ' (stripMarks (removeBrackets (beforeSlashSep l))))

/-- `preCleanTitle` from script.js, on `String`. -/
def preCleanTitle (t : String) : String := String.mk (preCleanL t.data)

/-- Removal of the combining diacritical marks U+0300 to U+036F. -/
def stripCombining (l : List Char) : List Char :=
  l.filter (fun c => !(0x300 ≤ c.toNat && c.toNat ≤ 0x36F))

/-- The external Unicode NFKD normalizer, modelled as a per-character
decomposition mapped over the string. -/
def nfkdL (decomp : Char → List Char) (l : List Char) : List Char :=
  concatMap decomp l

/-- The identity decomposition: the restriction of NFKD to ASCII input. -/
def decompId : Char → List Char := fun c => [c]

/-- `normalizeKey` from script.js: NFKD, strip combining marks, lowercase,
remove every character outside `[a-z0-9]`. -/
def normalizeKeyL (decomp : Char → List Char) (l : List Char) : List Char :=
  ((stripCombining (nfkdL decomp l)).map asciiLower).filter isSlugAl

/-- `normalizeKey` from script.js, on `String`. -/
def normalizeKey (decomp : Char → List Char) (s : String) : String :=
  String.mk (normalizeKeyL decomp s.data)

/-- `aliasSlugMap` from script.js: the static alias table mapping a normalized
comparison key to an authoritative slug. -/
def aliasSlugMap : String → Option String
  | "unsquadron" => some "u-n-squadron"
  | "area88" => some "u-n-squadron"
  | "mariokart8" => some "mario-kart-8"
  | _ => none

/-- JS `replace(/&/g, " and ")`. -/
def replaceAmp (l : List Char) : List Char :=
  concatMap (fun c => if c = '&' then " and ".data else [c]) l

/-- JS `replace` of every plus sign by the word plus with surrounding
spaces. -/
def replacePlus (l : List Char) : List Char :=
  concatMap (fun c => if c = '+' then " plus ".data else [c]) l

/-- The slug-generation path of `slugifyIGDB` from script.js, applied to the
already pre-cleaned title: expand ampersand and plus, NFKD, strip combining
marks, lowercase, replace every run outside `[a-z0-9]` by a hyphen, trim
leading and trailing hyphens, collapse hyphen runs. -/
def generatedSlugL (decomp : Char → List Char) (cleaned : List Char) : List Char :=
  replaceRuns (fun c => c == '-') '-'
    (dropEnds (fun c => c == '-')
      (replaceRuns (fun c => !isSlugAl c) '-'
        ((stripCombining (nfkdL decomp (replacePlus (replaceAmp cleaned)))).map asciiLower)))

/-- The slug-generation path of `slugifyIGDB`, on `String`. -/
def generatedSlug (decomp : Char → List Char) (cleaned : String) : String :=
  String.mk (generatedSlugL decomp cleaned.data)

/-- `slugifyIGDB` from script.js: pre-clean the title, return the alias slug
when the normalized key is in the alias table, otherwise the generated
slug. -/
def slugifyIGDB (decomp : Char → List Char) (title : String) : String :=
  match aliasSlugMap (normalizeKey decomp (preCleanTitle title)) with
  | some s => s
  | none => generatedSlug decomp (preCleanTitle title)

/-- The base URL of the slug fallback in `getIGDBUrl`. -/
def igdbBase : String := "https://www.igdb.com/games/"

/-- The optional-chained nested lookup `linkMap?.[platform]?.[title]`, over an
association-list model of the two JSON objects. -/
def lookup2 (lm : List (String × List (String × String))) (p t : String) :
    Option String :=
  (lm.lookup p).bind (fun m => m.lookup t)

/-- `getIGDBUrl` from script.js.  The source tests the looked-up value for JS
truthiness, which for strings means non-emptiness: a present but empty entry
falls through to the slug fallback exactly like an absent one. -/
def getIGDBUrl (decomp : Char → List Char)
    (lm : List (String × List (String × String))) (p t : String) : String :=
  match lookup2 lm p t with
  | some m => if m = "" then igdbBase ++ slugifyIGDB decomp t else m
  | none => igdbBase ++ slugifyIGDB decomp t

/-! Helper lemmas about the resolver. -/

theorem ne_empty_of_append (s t : String) (hs : s ≠ "") : s ++ t ≠ "" := by
  cases s with
  | mk a =>
    cases t with
    | mk b =>
      intro h
      have hd : a ++ b = [] := congrArg String.data h
      have ha : a = [] := (List.append_eq_nil.mp hd).1
      exact hs (by simp [ha])

/-! ### C1 -/

/-- A link-override map holding an empty-string entry, for the C1
counterexample. -/
def emptyOverrideMap : List (String × List (String × String)) :=
  [("SNES", [("Foo", "")])]

/-- C1 counterexample: the override map contains the entry with value `""`
for the pair (SNES, Foo), yet `getIGDBUrl` does not return that entry
byte-for-byte: string truthiness makes the code fall through to the generated
slug, so the claim fails for present-but-empty entries. -/
theorem c1_counterexample :
    lookup2 emptyOverrideMap "SNES" "Foo" = some "" ∧
    getIGDBUrl decompId emptyOverrideMap "SNES" "Foo" ≠ "" ∧
    getIGDBUrl decompId emptyOverrideMap "SNES" "Foo" =
      "https://www.igdb.com/games/foo" := by
  refine ⟨rfl, ?_, ?_⟩ <;> decide

/-- C1 (amended): for every (platform, title) pair whose link-override entry
is present and non-empty, `getIGDBUrl` returns that entry exactly,
byte-for-byte, without applying pre-cleaning, the alias table, or slug
generation. -/
theorem c1_override_verbatim (decomp : Char → List Char)
    (lm : List (String × List (String × String))) (p t u : String)
    (h : lookup2 lm p t = some u) (hu : u ≠ "") :
    getIGDBUrl decomp lm p t = u := by
  simp [getIGDBUrl, h, hu]

/-- A well-formed link-override map for the C1 witness. -/
def demoOverrideMap : List (String × List (String × String)) :=
  [("SNES", [("Chrono Trigger", "https://www.igdb.com/games/chrono-trigger")])]

theorem c1_override_verbatim_witness :
    getIGDBUrl decompId demoOverrideMap "SNES" "Chrono Trigger" =
      "https://www.igdb.com/games/chrono-trigger" :=
  c1_override_verbatim decompId demoOverrideMap "SNES" "Chrono Trigger" _
    (by decide) (by decide)

/-! ### C4 -/

/-- C4: for every title whose normalization key (computed from the pre-cleaned
title) matches an alias-table entry, and with no override present, `getIGDBUrl`
returns the base URL concatenated with the authoritative slug of the alias. -/
theorem c4_alias_wins (decomp : Char → List Char)
    (lm : List (String × List (String × String))) (p title s : String)
    (hov : lookup2 lm p title = none)
    (ha : aliasSlugMap (normalizeKey decomp (preCleanTitle title)) = some s) :
    getIGDBUrl decomp lm p title = igdbBase ++ s := by
  simp [getIGDBUrl, hov, slugifyIGDB, ha]

theorem c4_alias_wins_witness :
    getIGDBUrl decompId [] "SNES" "U.N. Squadron" =
      "https://www.igdb.com/games/u-n-squadron" :=
  c4_alias_wins decompId [] "SNES" "U.N. Squadron" "u-n-squadron"
    (by decide) (by decide)

/-! ### C9 -/

/-- C9: a title that pre-cleans to the empty string resolves without any
guard or error: the alias table misses, the generated slug is empty, and the
resolver returns the base URL with an empty slug segment. -/
theorem c9_empty_slug (decomp : Char → List Char)
    (lm : List (String × List (String × String))) (p title : String)
    (hclean : preCleanTitle title = "")
    (hov : lookup2 lm p title = none) :
    slugifyIGDB decomp title = "" ∧ getIGDBUrl decomp lm p title = igdbBase := by
  have h1 : slugifyIGDB decomp title = "" := by
    unfold slugifyIGDB
    rw [hclean]
    rfl
  refine ⟨h1, ?_⟩
  unfold getIGDBUrl
  rw [hov, h1]
  rfl

theorem c9_empty_slug_witness :
    slugifyIGDB decompId "(Japan)" = "" ∧
    getIGDBUrl decompId [] "Any" "(Japan)" = igdbBase :=
  c9_empty_slug decompId [] "Any" "(Japan)" (by decide) (by decide)

/-! ### C10 -/

/-- C10: a present but empty-string override entry is treated exactly like an
absent one — resolution falls through to the alias/generated-slug path — and
`getIGDBUrl` never returns the empty string. -/
theorem c10_empty_override_ignored (decomp : Char → List Char)
    (lm : List (String × List (String × String))) (p t : String) :
    (lookup2 lm p t = some "" →
      getIGDBUrl decomp lm p t = igdbBase ++ slugifyIGDB decomp t) ∧
    getIGDBUrl decomp lm p t ≠ "" := by
  constructor
  · intro h
    simp [getIGDBUrl, h]
  · unfold getIGDBUrl
    cases h : lookup2 lm p t with
    | none => exact ne_empty_of_append igdbBase _ (by decide)
    | some m =>
      by_cases hm : m = ""
      · simp only [hm, if_pos rfl]
        exact ne_empty_of_append igdbBase _ (by decide)
      · simp [hm]

theorem c10_empty_override_ignored_witness :
    getIGDBUrl decompId emptyOverrideMap "SNES" "Foo" =
      igdbBase ++ slugifyIGDB decompId "Foo" :=
  (c10_empty_override_ignored decompId emptyOverrideMap "SNES" "Foo").1 (by decide)

/-! ### C2 -/

/-- `hasAdjPair r l` is true when `l` contains two consecutive occurrences of
the character `r`. -/
def hasAdjPair (r : Char) : List Char → Bool
  | a :: b :: rest => (a == r && b == r) || hasAdjPair r (b :: rest)
  | _ => false

theorem mem_replRunsAux (p : Char → Bool) (r : Char) (c : Char) :
    ∀ (l : List Char) (b : Bool),
      c ∈ replRunsAux p r b l → c = r ∨ (c ∈ l ∧ p c = false) := by
  intro l
  induction l with
  | nil => intro b hc; simp [replRunsAux] at hc
  | cons d ds ih =>
    intro b hc
    cases hpd : p d with
    | true =>
      cases b with
      | true =>
        simp only [replRunsAux, hpd, if_true] at hc
        rcases ih true hc with h | ⟨h1, h2⟩
        · exact Or.inl h
        · exact Or.inr ⟨List.mem_cons_of_mem _ h1, h2⟩
      | false =>
        simp only [replRunsAux, hpd, if_true, if_false] at hc
        rcases List.mem_cons.mp hc with h | h
        · exact Or.inl h
        · rcases ih true h with h | ⟨h1, h2⟩
          · exact Or.inl h
          · exact Or.inr ⟨List.mem_cons_of_mem _ h1, h2⟩
    | false =>
      simp only [replRunsAux, hpd, Bool.false_eq_true, if_false] at hc
      rcases List.mem_cons.mp hc with h | h
      · subst h; exact Or.inr ⟨List.mem_cons_self _ _, hpd⟩
      · rcases ih false h with h | ⟨h1, h2⟩
        · exact Or.inl h
        · exact Or.inr ⟨List.mem_cons_of_mem _ h1, h2⟩

theorem head_replRunsAux_true (p : Char → Bool) (r : Char) :
    ∀ (l : List Char) (c : Char),
      (replRunsAux p r true l).head? = some c → p c = false := by
  intro l
  induction l with
  | nil => intro c hc; simp [replRunsAux] at hc
  | cons d ds ih =>
    intro c hc
    cases hpd : p d with
    | true =>
      simp only [replRunsAux, hpd, if_true] at hc
      exact ih c hc
    | false =>
      simp only [replRunsAux, hpd, Bool.false_eq_true, if_false,
        List.head?_cons, Option.some.injEq] at hc
      rw [← hc]
      exact hpd

theorem beq_char_false (p : Char → Bool) (r a : Char) (hp : p r = true)
    (ha : p a = false) : (a == r) = false := by
  cases h : a == r with
  | false => rfl
  | true =>
    have he : a = r := eq_of_beq h
    rw [he, hp] at ha
    exact absurd ha (by simp)

theorem hasAdjPair_replRunsAux (p : Char → Bool) (r : Char) (hp : p r = true) :
    ∀ (l : List Char) (b : Bool), hasAdjPair r (replRunsAux p r b l) = false := by
  intro l
  induction l with
  | nil => intro b; simp [replRunsAux, hasAdjPair]
  | cons d ds ih =>
    intro b
    cases hpd : p d with
    | true =>
      cases b with
      | true =>
        simp only [replRunsAux, hpd, if_true]
        exact ih true
      | false =>
        simp only [replRunsAux, hpd, if_true, if_false]
        cases hX : replRunsAux p r true ds with
        | nil => simp [hasAdjPair]
        | cons e es =>
          have he : p e = false :=
            head_replRunsAux_true p r ds e (by rw [hX]; rfl)
          have her : (e == r) = false := beq_char_false p r e hp he
          have htail : hasAdjPair r (e :: es) = false := by
            rw [← hX]; exact ih true
          simp [hasAdjPair, her, htail]
    | false =>
      simp only [replRunsAux, hpd, Bool.false_eq_true, if_false]
      cases hX : replRunsAux p r false ds with
      | nil => simp [hasAdjPair]
      | cons e es =>
        have hd_ne : (d == r) = false := beq_char_false p r d hp hpd
        have htail : hasAdjPair r (e :: es) = false := by
          rw [← hX]; exact ih false
        simp [hasAdjPair, hd_ne, htail]

theorem getLast?_cons_of_getLast? (a : Char) (l : List Char) (x : Char)
    (h : l.getLast? = some x) : (a :: l).getLast? = some x := by
  cases l with
  | nil => simp at h
  | cons b bs => rw [List.getLast?_cons_cons]; exact h

theorem getLast_replRunsAux (p : Char → Bool) (r : Char) :
    ∀ (l : List Char) (b : Bool) (x : Char),
      l.getLast? = some x → p x = false →
      (replRunsAux p r b l).getLast? = some x := by
  intro l
  induction l with
  | nil => intro b x hx _; simp at hx
  | cons d ds ih =>
    intro b x hx hpx
    cases ds with
    | nil =>
      simp only [List.getLast?_singleton, Option.some.injEq] at hx
      subst hx
      simp only [replRunsAux, hpx, Bool.false_eq_true, if_false]
      simp [replRunsAux]
    | cons e es =>
      rw [List.getLast?_cons_cons] at hx
      cases hpd : p d with
      | true =>
        cases b with
        | true =>
          simp only [replRunsAux, hpd, if_true]
          exact ih true x hx hpx
        | false =>
          simp only [replRunsAux, hpd, if_true, if_false]
          exact getLast?_cons_of_getLast? r _ x (ih true x hx hpx)
      | false =>
        simp only [replRunsAux, hpd, Bool.false_eq_true, if_false]
        exact getLast?_cons_of_getLast? d _ x (ih false x hx hpx)

theorem head_dropWhile (p : Char → Bool) :
    ∀ (l : List Char) (c : Char), (l.dropWhile p).head? = some c → p c = false := by
  intro l
  induction l with
  | nil => intro c hc; simp [List.dropWhile] at hc
  | cons d ds ih =>
    intro c hc
    cases hpd : p d with
    | true =>
      rw [List.dropWhile_cons, if_pos (by rw [hpd])] at hc
      exact ih c hc
    | false =>
      rw [List.dropWhile_cons, if_neg (by rw [hpd]; exact Bool.false_ne_true)] at hc
      simp only [List.head?_cons, Option.some.injEq] at hc
      rw [← hc]
      exact hpd

theorem getLast_dropWhile (p : Char → Bool) :
    ∀ (l : List Char), l.dropWhile p ≠ [] →
      (l.dropWhile p).getLast? = l.getLast? := by
  intro l
  induction l with
  | nil => intro h; simp [List.dropWhile] at h
  | cons d ds ih =>
    intro h
    cases hpd : p d with
    | false =>
      rw [List.dropWhile_cons, if_neg (by rw [hpd]; exact Bool.false_ne_true)]
    | true =>
      have hst : (d :: ds).dropWhile p = ds.dropWhile p := by
        rw [List.dropWhile_cons, if_pos (by rw [hpd])]
      rw [hst] at h ⊢
      have hds : ds ≠ [] := by
        intro he
        rw [he] at h
        simp [List.dropWhile] at h
      rw [ih h]
      cases ds with
      | nil => exact absurd rfl hds
      | cons e es => rw [List.getLast?_cons_cons]

theorem mem_dropWhile (p : Char → Bool) :
    ∀ (l : List Char) (c : Char), c ∈ l.dropWhile p → c ∈ l := by
  intro l
  induction l with
  | nil => intro c hc; simp [List.dropWhile] at hc
  | cons d ds ih =>
    intro c hc
    cases hpd : p d with
    | true =>
      rw [List.dropWhile_cons, if_pos (by rw [hpd])] at hc
      exact List.mem_cons_of_mem _ (ih c hc)
    | false =>
      rw [List.dropWhile_cons, if_neg (by rw [hpd]; exact Bool.false_ne_true)] at hc
      exact hc

theorem head_dropEnds (p : Char → Bool) (l : List Char) (c : Char)
    (h : (dropEnds p l).head? = some c) : p c = false := by
  unfold dropEnds at h
  rw [List.head?_reverse] at h
  have hne : (l.dropWhile p).reverse.dropWhile p ≠ [] := by
    intro he
    rw [he] at h
    simp at h
  rw [getLast_dropWhile p _ hne, List.getLast?_reverse] at h
  exact head_dropWhile p l c h

theorem getLast_dropEnds (p : Char → Bool) (l : List Char) (c : Char)
    (h : (dropEnds p l).getLast? = some c) : p c = false := by
  unfold dropEnds at h
  rw [List.getLast?_reverse] at h
  exact head_dropWhile p _ c h

theorem mem_dropEnds (p : Char → Bool) (l : List Char) (c : Char)
    (h : c ∈ dropEnds p l) : c ∈ l := by
  unfold dropEnds at h
  rw [List.mem_reverse] at h
  have h2 := mem_dropWhile p _ c h
  rw [List.mem_reverse] at h2
  exact mem_dropWhile p l c h2

theorem head_replaceRuns_of_head (p : Char → Bool) (r : Char) (l : List Char)
    (h : ∀ c, l.head? = some c → p c = false) :
    (replaceRuns p r l).head? = l.head? := by
  cases l with
  | nil => rfl
  | cons d ds =>
    have hd : p d = false := h d rfl
    simp [replaceRuns, replRunsAux, hd]

/-- The shape invariant of the final three slug steps (hyphenate runs, trim
hyphens, collapse hyphen runs) over an arbitrary intermediate list. -/
theorem slugTail_shape (m : List Char) :
    (∀ c ∈ replaceRuns (fun c => c == '-') '-'
        (dropEnds (fun c => c == '-') (replaceRuns (fun c => !isSlugAl c) '-' m)),
      isSlugAl c = true ∨ c = '-') ∧
    (replaceRuns (fun c => c == '-') '-'
        (dropEnds (fun c => c == '-') (replaceRuns (fun c => !isSlugAl c) '-' m))).head?
      ≠ some '-' ∧
    (replaceRuns (fun c => c == '-') '-'
        (dropEnds (fun c => c == '-') (replaceRuns (fun c => !isSlugAl c) '-' m))).getLast?
      ≠ some '-' ∧
    hasAdjPair '-' (replaceRuns (fun c => c == '-') '-'
        (dropEnds (fun c => c == '-') (replaceRuns (fun c => !isSlugAl c) '-' m))) = false := by
  set L1 : List Char := replaceRuns (fun c => !isSlugAl c) '-' m with hL1
  set L2 : List Char := dropEnds (fun c => c == '-') L1 with hL2
  have hpH : ((fun c => c == '-') '-' : Bool) = true := by rfl
  refine ⟨?_, ?_, ?_, ?_⟩
  · intro c hc
    rcases mem_replRunsAux (fun c => c == '-') '-' c L2 false hc with h | ⟨h1, _⟩
    · exact Or.inr h
    · have h2 : c ∈ L1 := mem_dropEnds (fun c => c == '-') L1 c h1
      rcases mem_replRunsAux (fun c => !isSlugAl c) '-' c m false h2 with h | ⟨_, h4⟩
      · exact Or.inr h
      · simp only [Bool.not_eq_false'] at h4
        exact Or.inl h4
  · have hh : (replaceRuns (fun c => c == '-') '-' L2).head? = L2.head? :=
      head_replaceRuns_of_head (fun c => c == '-') '-' L2
        (fun c hc => head_dropEnds (fun c => c == '-') L1 c hc)
    rw [hh]
    intro habs
    have hf := head_dropEnds (fun c => c == '-') L1 '-' habs
    simp at hf
  · cases hL : L2.getLast? with
    | none =>
      have hnil : L2 = [] := by rwa [List.getLast?_eq_none_iff] at hL
      rw [hnil]
      simp [replaceRuns, replRunsAux]
    | some x =>
      have hx : ((x == '-') : Bool) = false :=
        getLast_dropEnds (fun c => c == '-') L1 x hL
      have hres : (replaceRuns (fun c => c == '-') '-' L2).getLast? = some x :=
        getLast_replRunsAux (fun c => c == '-') '-' L2 false x hL hx
      rw [hres]
      intro habs
      have hxe : x = '-' := by injection habs
      rw [hxe] at hx
      simp at hx
  · exact hasAdjPair_replRunsAux (fun c => c == '-') '-' hpH L2 false

/-- The shape invariant of the generation path, for an arbitrary already
cleaned input: every character is in `[a-z0-9]` or is a hyphen, and there is
no leading, trailing, or doubled hyphen. -/
theorem generatedSlugL_shape (decomp : Char → List Char) (cleaned : List Char) :
    (∀ c ∈ generatedSlugL decomp cleaned, isSlugAl c = true ∨ c = '-') ∧
    (generatedSlugL decomp cleaned).head? ≠ some '-' ∧
    (generatedSlugL decomp cleaned).getLast? ≠ some '-' ∧
    hasAdjPair '-' (generatedSlugL decomp cleaned) = false :=
  slugTail_shape
    ((stripCombining (nfkdL decomp (replacePlus (replaceAmp cleaned)))).map asciiLower)

set_option maxHeartbeats 1000000 in
/-- C2: for every title (and every NFKD decomposition), the slug produced by
the generation path of `slugifyIGDB` consists only of characters in
`[a-z0-9-]` and has no leading hyphen, no trailing hyphen, and no two
consecutive hyphens. -/
theorem c2_generated_slug_shape (decomp : Char → List Char) (title : String) :
    (∀ c ∈ (generatedSlug decomp (preCleanTitle title)).data,
        isSlugAl c = true ∨ c = '-') ∧
    (generatedSlug decomp (preCleanTitle title)).data.head? ≠ some '-' ∧
    (generatedSlug decomp (preCleanTitle title)).data.getLast? ≠ some '-' ∧
    hasAdjPair '-' (generatedSlug decomp (preCleanTitle title)).data = false :=
  generatedSlugL_shape decomp (preCleanTitle title).data

theorem c2_generated_slug_shape_witness :
    isSlugAl 'm' = true ∨ 'm' = '-' :=
  (c2_generated_slug_shape decompId "Mario Kart").1 'm' (by decide)

/-! ### FilterEngine: the filtering part of `render`, with search, platform
and letter filters. -/

/-- Matching of the needle at the head of the haystack, the inner loop of JS
includes. -/
def containsSubAt : List Char → List Char → Bool
  | [], _ => true
  | _ :: _, [] => false
  | n :: ns, h :: hs => n == h && containsSubAt ns hs

/-- JS `hay.includes(needle)`: substring containment. -/
def containsSub (needle : List Char) : List Char → Bool
  | [] => needle.isEmpty
  | h :: hs => containsSubAt needle (h :: hs) || containsSub needle hs

/-- `firstLetterKey` from the source: the trimmed first character is
uppercased (a possibly multi-character string), the result is the key when
the unanchored test `/[A-Z]/` finds an ASCII capital in it, and the bucket
"#" otherwise (also for a title that trims to the empty string, whose
`charAt(0)` is the empty string). -/
def firstLetterKey (title : String) : String :=
  match jsTrim title.data with
  | [] => "#"
  | c :: _ =>
    if (jsUpperChar c).any (fun u => 'A' ≤ u && u ≤ 'Z') then
      String.mk (jsUpperChar c)
    else "#"

/-- The filter state of the source (the display-only density field and the
batch size are passed separately where needed). -/
structure FilterState where
  search : String
  platform : String
  letter : String

/-- `titleMatchesFilters` from the source: the search filter
(case-insensitive substring containment) and the letter filter (first-letter
bucket equality), each active only when its state field is non-empty (JS
truthiness of the field). -/
def titleMatchesFilters (st : FilterState) (title : String) : Bool :=
  if st.search != "" && !containsSub st.search.data (title.data.map asciiLower) then
    false
  else if st.letter != "" && firstLetterKey title != st.letter then false
  else true

/-- The platform iteration and per-platform filtering of `render`: only the
selected platform when one is selected (JS truthiness of the platform field),
otherwise every catalog key in locale-aware order (the locale comparator is an
external collaborator, so the sort is an arbitrary parameter); a missing
platform contributes an empty list and a platform whose filtered list is
empty is skipped. -/
def applyFilter (localeSort : List String → List String)
    (games : List (String × List String)) (st : FilterState) :
    List (String × List String) :=
  (if st.platform != "" then [st.platform]
   else localeSort (games.map Prod.fst)).filterMap
    (fun p =>
      let filtered := ((games.lookup p).getD []).filter (titleMatchesFilters st)
      if filtered.isEmpty then none else some (p, filtered))

theorem filterMap_singleton_length {α β : Type} (f : α → Option β) (a : α) :
    (List.filterMap f [a]).length ≤ 1 := by
  cases h : f a <;> simp [List.filterMap_cons, h]

theorem mem_filterMap_singleton {α β : Type} (f : α → Option β) (a : α) (b : β)
    (hb : b ∈ List.filterMap f [a]) : f a = some b := by
  rcases List.mem_filterMap.mp hb with ⟨x, hx, hfx⟩
  rw [List.mem_singleton.mp hx] at hfx
  exact hfx

/-! ### C5 -/

/-- C5: with a platform selected, `applyFilter` returns at most one entry and
any entry names exactly the selected platform; and for every filter state, a
platform whose filtered title list is empty is omitted from the result
entirely rather than emitted with an empty list. -/
theorem c5_platform_and_omission (localeSort : List String → List String)
    (games : List (String × List String)) (st : FilterState) :
    (st.platform ≠ "" →
      (applyFilter localeSort games st).length ≤ 1 ∧
      ∀ e ∈ applyFilter localeSort games st, e.1 = st.platform) ∧
    ∀ e ∈ applyFilter localeSort games st, e.2 ≠ [] := by
  constructor
  · intro hp
    have hb : (st.platform != "") = true := bne_iff_ne.mpr hp
    unfold applyFilter
    rw [if_pos hb]
    constructor
    · exact filterMap_singleton_length _ _
    · intro e he
      have hfa := mem_filterMap_singleton _ _ _ he
      dsimp only at hfa
      split at hfa
      · exact absurd hfa (by simp)
      · injection hfa with hfe
        rw [← hfe]
  · intro e he
    unfold applyFilter at he
    rcases List.mem_filterMap.mp he with ⟨p, _, hfp⟩
    dsimp only at hfp
    split at hfp
    · exact absurd hfp (by simp)
    · rename_i hne
      injection hfp with hfe
      rw [← hfe]
      intro hnil
      exact hne (by rw [List.isEmpty_iff]; exact hnil)

/-- A small well-formed catalog for the FilterEngine witnesses. -/
def demoCatalog : List (String × List String) :=
  [("NES", ["Mario Bros.", "Zelda"]), ("SNES", ["Chrono Trigger"])]

/-- A concrete stand-in for the external locale-aware sort. -/
def idKeySort : List String → List String := fun l => l

theorem c5_platform_and_omission_witness :
    (applyFilter idKeySort demoCatalog ⟨"", "SNES", ""⟩).length ≤ 1 :=
  ((c5_platform_and_omission idKeySort demoCatalog ⟨"", "SNES", ""⟩).1
    (by decide)).1

/-! ### C6 -/

/-- The twenty-six single-letter buckets of the letter filter. -/
def azLetters : List String :=
  ["A", "B", "C", "D", "E", "F", "G", "H", "I", "J", "K", "L", "M",
   "N", "O", "P", "Q", "R", "S", "T", "U", "V", "W", "X", "Y", "Z"]

theorem titleMatches_letterOnly (L title : String) (hL : L ≠ "") :
    titleMatchesFilters ⟨"", "", L⟩ title = (firstLetterKey title == L) := by
  have hb : (L != "") = true := bne_iff_ne.mpr hL
  cases hk : firstLetterKey title == L <;>
    simp [titleMatchesFilters, hb, hk, bne, hL]

theorem char_eq_of_toNat_eq (c : Char) (n : Nat) (h : c.toNat = n) :
    c = Char.ofNat n := by
  have h2 : Char.ofNat c.toNat = Char.ofNat n := by rw [h]
  rw [Char.ofNat_toNat] at h2
  exact h2

theorem toNat_ofNat_of_lt (n : Nat) (h : n < 55296) :
    (Char.ofNat n).toNat = n := by
  unfold Char.ofNat
  rw [dif_pos (Or.inl h)]
  rfl

theorem lookup_mem {α β : Type} [BEq α] [LawfulBEq α] :
    ∀ (l : List (α × β)) (p : α) (v : β),
      l.lookup p = some v → (p, v) ∈ l := by
  intro l
  induction l with
  | nil => intro p v h; simp [List.lookup] at h
  | cons e es ih =>
    intro p v h
    cases e with
    | mk k b =>
      by_cases hk : (p == k) = true
      · have hpk : p = k := eq_of_beq hk
        simp only [List.lookup, hk] at h
        injection h with hb
        rw [hpk, ← hb]
        exact List.mem_cons_self _ _
      · rw [Bool.not_eq_true] at hk
        simp only [List.lookup, hk] at h
        exact List.mem_cons_of_mem _ (ih p v h)

/-- The characters whose JS uppercase is exactly the one-character string
"A" are the letter a and the letter A itself. -/
theorem jsUpperChar_eq_A_iff (c : Char) :
    jsUpperChar c = ['A'] ↔ (c = 'a' ∨ c = 'A') := by
  constructor
  · intro hu
    unfold jsUpperChar at hu
    by_cases h1 : ('a' ≤ c && c ≤ 'z') = true
    · rw [if_pos h1] at hu
      left
      simp only [Bool.and_eq_true, decide_eq_true_eq] at h1
      have ha : 97 ≤ c.toNat := Char.le_def.mp h1.1
      have hz : c.toNat ≤ 122 := Char.le_def.mp h1.2
      simp only [List.cons.injEq, and_true] at hu
      have hm : (Char.ofNat (c.toNat - 32)).toNat = 65 := by rw [hu]; rfl
      rw [toNat_ofNat_of_lt (c.toNat - 32) (by omega)] at hm
      exact char_eq_of_toNat_eq c 97 (by omega)
    · rw [if_neg h1] at hu
      cases hl : upperSpecials.lookup c.toNat with
      | some u =>
        simp only [hl] at hu
        have hmem := lookup_mem upperSpecials c.toNat u hl
        have hne : ∀ pu ∈ upperSpecials, pu.2 ≠ (['A'] : List Char) := by decide
        exact absurd hu (hne (c.toNat, u) hmem)
      | none =>
        simp only [hl] at hu
        right
        simpa using hu
  · rintro (rfl | rfl) <;> decide

theorem firstLetterKey_eq_A_iff (title : String) :
    firstLetterKey title = "A" ↔
      ∃ c, (jsTrim title.data).head? = some c ∧ (c = 'a' ∨ c = 'A') := by
  cases h : jsTrim title.data with
  | nil =>
    have hfk : firstLetterKey title = "#" := by unfold firstLetterKey; rw [h]
    rw [hfk]
    constructor
    · intro habs; exact absurd habs (by decide)
    · rintro ⟨c, hc, -⟩; simp at hc
  | cons c rest =>
    have hfk : firstLetterKey title
        = if (jsUpperChar c).any (fun u => 'A' ≤ u && u ≤ 'Z') then
            String.mk (jsUpperChar c)
          else "#" := by
      unfold firstLetterKey; rw [h]
    rw [hfk]
    simp only [List.head?_cons, Option.some.injEq]
    constructor
    · intro heq
      by_cases hcond : ((jsUpperChar c).any (fun u => 'A' ≤ u && u ≤ 'Z')) = true
      · rw [if_pos hcond] at heq
        have hd : jsUpperChar c = ['A'] := congrArg String.data heq
        exact ⟨c, rfl, (jsUpperChar_eq_A_iff c).mp hd⟩
      · rw [if_neg hcond] at heq
        exact absurd heq (by decide)
    · rintro ⟨c2, hc2, hca⟩
      rw [← hc2] at hca
      have hA : jsUpperChar c = ['A'] := (jsUpperChar_eq_A_iff c).mpr hca
      rw [if_pos (by rw [hA]; decide), hA]

theorem firstLetterKey_hash_of_no_ascii (title : String) (c : Char)
    (hh : (jsTrim title.data).head? = some c)
    (hna : (jsUpperChar c).any (fun u => 'A' ≤ u && u ≤ 'Z') = false) :
    firstLetterKey title = "#" := by
  cases h : jsTrim title.data with
  | nil => rw [h] at hh; simp at hh
  | cons d rest =>
    rw [h] at hh
    simp only [List.head?_cons, Option.some.injEq] at hh
    subst hh
    have hfk : firstLetterKey title
        = if (jsUpperChar d).any (fun u => 'A' ≤ u && u ≤ 'Z') then
            String.mk (jsUpperChar d)
          else "#" := by
      unfold firstLetterKey; rw [h]
    rw [hfk, if_neg (by rw [hna]; exact Bool.false_ne_true)]

/-- C6 counterexample: the title "ıce" starts with the dotless i U+0131,
which is not an ASCII letter A to Z, yet its JS uppercase is the ASCII
capital I, so the source classifies the title into the letter bucket "I" and
not into the bucket "#" — refuting the claim that every title whose trimmed
first character is not an ASCII letter is excluded from all letter buckets
and matched only by "#". -/
theorem c6_counterexample :
    (('A' ≤ 'ı' && 'ı' ≤ 'Z') || ('a' ≤ 'ı' && 'ı' ≤ 'z')) = false ∧
    titleMatchesFilters ⟨"", "", "I"⟩ "ıce" = true ∧
    titleMatchesFilters ⟨"", "", "#"⟩ "ıce" = false := by
  refine ⟨?_, ?_, ?_⟩ <;> decide

/-- C6 (amended): with only the letter filter active, bucket "A" selects
exactly the titles whose trimmed first character, compared
case-insensitively, is the letter A; and a title whose trimmed first
character has a JS uppercase containing no ASCII capital (such as
"3D Pinball") is excluded from every bucket A to Z and matches exactly the
bucket "#".  A first character outside A to Z whose uppercase is an ASCII
capital (dotless i, long s) lands in that letter bucket instead; see the
counterexample. -/
theorem c6_letter_filter (title : String) :
    (titleMatchesFilters ⟨"", "", "A"⟩ title = true ↔
      ∃ c, (jsTrim title.data).head? = some c ∧ (c = 'a' ∨ c = 'A')) ∧
    (∀ c, (jsTrim title.data).head? = some c →
      (jsUpperChar c).any (fun u => 'A' ≤ u && u ≤ 'Z') = false →
      (∀ L ∈ azLetters, titleMatchesFilters ⟨"", "", L⟩ title = false) ∧
      titleMatchesFilters ⟨"", "", "#"⟩ title = true) := by
  constructor
  · rw [titleMatches_letterOnly "A" title (by decide)]
    constructor
    · intro hmk
      exact (firstLetterKey_eq_A_iff title).mp (beq_iff_eq.mp hmk)
    · intro hex
      exact beq_iff_eq.mpr ((firstLetterKey_eq_A_iff title).mpr hex)
  · intro c hc hna
    have hk := firstLetterKey_hash_of_no_ascii title c hc hna
    constructor
    · intro L hLmem
      have hall : ∀ L ∈ azLetters, (("#" : String) == L) = false ∧ L ≠ "" := by
        decide
      rcases hall L hLmem with ⟨h1, h2⟩
      rw [titleMatches_letterOnly L title h2, hk]
      exact h1
    · rw [titleMatches_letterOnly "#" title (by decide), hk]
      rfl

theorem c6_letter_filter_witness :
    titleMatchesFilters ⟨"", "", "#"⟩ "3D Pinball" = true :=
  ((c6_letter_filter "3D Pinball").2 '3' (by decide) (by decide)).2

/-! ### C8: the dynamic (JSON-typed) semantics of the per-platform lookup -/

/-- A JSON-like catalog value as the JS code can encounter it. -/
inductive JVal where
  | arr (titles : List String)
  | str (s : String)
  | num (n : Int)
  | boolv (b : Bool)
  | null
deriving DecidableEq

/-- JS truthiness of a catalog value. -/
def JVal.truthy : JVal → Bool
  | .arr _ => true
  | .str s => s != ""
  | .num n => n != 0
  | .boolv b => b
  | .null => false

/-- `GAMES[p] || []`: a falsy value (an absent key, null, false, zero or the
empty string) is replaced by the empty array; any truthy value is kept as
is. -/
def jsOrEmptyList : Option JVal → JVal
  | some v => if v.truthy then v else .arr []
  | none => .arr []

/-- `.filter(titleMatchesFilters)` on a dynamic value: defined on arrays, a
TypeError on any other (necessarily truthy) value, since only arrays carry
the filter method. -/
def jsFilter (st : FilterState) : JVal → Except String (List String)
  | .arr l => .ok (l.filter (titleMatchesFilters st))
  | _ => .error "TypeError"

/-- The filtering loop of `render` under the dynamic semantics: each platform
contributes its filtered list unless that list is empty; a thrown TypeError
aborts the whole loop. -/
def collectE (st : FilterState) (catalog : List (String × JVal)) :
    List String → Except String (List (String × List String))
  | [] => .ok []
  | p :: rest =>
    match jsFilter st (jsOrEmptyList (catalog.lookup p)) with
    | .error e => .error e
    | .ok filtered =>
      match collectE st catalog rest with
      | .error e => .error e
      | .ok tail => .ok (if filtered.isEmpty then tail else (p, filtered) :: tail)

/-- `render` under the dynamic semantics, with the same platform iteration as
`applyFilter`. -/
def renderE (localeSort : List String → List String)
    (catalog : List (String × JVal)) (st : FilterState) :
    Except String (List (String × List String)) :=
  collectE st catalog
    (if st.platform != "" then [st.platform]
     else localeSort (catalog.map Prod.fst))

/-- A catalog value the filtering loop tolerates: an array, or a falsy value
(which `GAMES[p] || []` replaces by the empty array). -/
def jvalOk : JVal → Bool
  | .arr _ => true
  | v => !v.truthy

/-- C8 counterexample: a platform whose catalog value is the string "oops"
(not a list of titles, but truthy) is not treated as an empty list: the
filtering loop throws a TypeError, a fatal error, refuting the claim. -/
theorem c8_counterexample :
    renderE idKeySort [("SNES", JVal.str "oops")] ⟨"", "SNES", ""⟩ =
      Except.error "TypeError" := rfl

theorem collectE_ok (st : FilterState) (catalog : List (String × JVal))
    (h : ∀ pv ∈ catalog, jvalOk pv.2 = true) :
    ∀ ps : List String, ∃ r, collectE st catalog ps = .ok r := by
  intro ps
  induction ps with
  | nil => exact ⟨[], rfl⟩
  | cons p rest ih =>
    rcases ih with ⟨r, hr⟩
    have hfil : ∃ f, jsFilter st (jsOrEmptyList (catalog.lookup p)) = .ok f := by
      cases hl : catalog.lookup p with
      | none => exact ⟨[], rfl⟩
      | some v =>
        have hok := h (p, v) (lookup_mem catalog p v hl)
        cases v with
        | arr l => exact ⟨l.filter (titleMatchesFilters st), rfl⟩
        | str s =>
          have hs : s = "" := by simpa [jvalOk, JVal.truthy] using hok
          subst hs
          exact ⟨[], rfl⟩
        | num n =>
          have hn : n = 0 := by simpa [jvalOk, JVal.truthy] using hok
          subst hn
          exact ⟨[], rfl⟩
        | boolv b =>
          have hb : b = false := by simpa [jvalOk, JVal.truthy] using hok
          subst hb
          exact ⟨[], rfl⟩
        | null => exact ⟨[], rfl⟩
    rcases hfil with ⟨f, hf⟩
    exact ⟨if f.isEmpty then r else (p, f) :: r, by simp [collectE, hf, hr]⟩

/-- C8 (amended): a platform whose catalog value is absent or falsy is
treated as an empty title list (zero matches), and the FilterEngine is total
over catalogs whose values are title lists or falsy; a truthy non-list value,
however, is a fatal TypeError (see the counterexample). -/
theorem c8_falsy_empty_total (localeSort : List String → List String)
    (catalog : List (String × JVal)) (st : FilterState)
    (h : ∀ pv ∈ catalog, jvalOk pv.2 = true) :
    (∃ r, renderE localeSort catalog st = Except.ok r) ∧
    (∀ p v, catalog.lookup p = some v → v.truthy = false →
      jsFilter st (jsOrEmptyList (catalog.lookup p)) = Except.ok []) := by
  constructor
  · rcases collectE_ok st catalog h
      (if st.platform != "" then [st.platform]
       else localeSort (catalog.map Prod.fst)) with ⟨r, hr⟩
    exact ⟨r, hr⟩
  · intro p v hl hf
    rw [hl]
    simp [jsOrEmptyList, hf, jsFilter]

/-- A dynamic catalog with one falsy (null) platform value for the C8
witness. -/
def demoDynCatalog : List (String × JVal) :=
  [("NES", JVal.null), ("SNES", JVal.arr ["Chrono Trigger"])]

theorem c8_falsy_empty_total_witness :
    ∃ r, renderE idKeySort demoDynCatalog ⟨"", "", ""⟩ = Except.ok r :=
  (c8_falsy_empty_total idKeySort demoDynCatalog ⟨"", "", ""⟩ (by decide)).1

/-! ### C3: the incremental batch renderer -/

/-- The per-platform render state of one pass: the items emitted so far (in
order) and the cursor where the next batch starts. -/
structure RenderPass where
  emitted : List String
  start : Nat
deriving DecidableEq

/-- `renderBatch` from the source: emit the items from the cursor up to
`min (start + step) titles.length` and advance the cursor there. -/
def renderBatch (titles : List String) (step : Nat) (s : RenderPass) : RenderPass :=
  { emitted := s.emitted ++
      (titles.drop s.start).take (min (s.start + step) titles.length - s.start),
    start := min (s.start + step) titles.length }

/-- The "Load more" control exists exactly while the cursor has not reached
the end of the filtered list (both `renderBatch` and the click handler remove
it once the list is fully rendered). -/
def loadMoreShown (titles : List String) (s : RenderPass) : Bool :=
  s.start < titles.length

/-- The remaining count reported on the "Load more" control. -/
def remainingCount (titles : List String) (s : RenderPass) : Nat :=
  titles.length - s.start

/-- C3: for a filtered list of 1000 titles and batch size 400, the first
batch emits exactly the first 400 items and the control reports 600
remaining; after two invocations of the control (three batches in all) every
item has been emitted exactly once, in the original order with no gaps or
overlaps, and the control has been removed. -/
theorem c3_incremental_batches (titles : List String) (h : titles.length = 1000) :
    (renderBatch titles 400 ⟨[], 0⟩).emitted = titles.take 400 ∧
    (renderBatch titles 400 ⟨[], 0⟩).emitted.length = 400 ∧
    loadMoreShown titles (renderBatch titles 400 ⟨[], 0⟩) = true ∧
    remainingCount titles (renderBatch titles 400 ⟨[], 0⟩) = 600 ∧
    (renderBatch titles 400 (renderBatch titles 400
        (renderBatch titles 400 ⟨[], 0⟩))).emitted = titles ∧
    loadMoreShown titles (renderBatch titles 400 (renderBatch titles 400
        (renderBatch titles 400 ⟨[], 0⟩))) = false := by
  have h1 : renderBatch titles 400 ⟨[], 0⟩ = ⟨titles.take 400, 400⟩ := by
    simp [renderBatch, h]
  have h2 : renderBatch titles 400 ⟨titles.take 400, 400⟩
      = ⟨titles.take 800, 800⟩ := by
    simp only [renderBatch, h]
    norm_num
    rw [← List.take_add]
  have h3 : renderBatch titles 400 ⟨titles.take 800, 800⟩ = ⟨titles, 1000⟩ := by
    simp only [renderBatch, h]
    norm_num
    rw [← List.take_add, show (800 + 200 : Nat) = 1000 from rfl, ← h,
      List.take_length]
  refine ⟨?_, ?_, ?_, ?_, ?_, ?_⟩
  · rw [h1]
  · rw [h1]
    simp [List.length_take, h]
  · rw [h1]
    simp [loadMoreShown, h]
  · rw [h1]
    simp [remainingCount, h]
  · rw [h1, h2, h3]
  · rw [h1, h2, h3]
    simp [loadMoreShown, h]

theorem c3_incremental_batches_witness :
    (renderBatch (List.replicate 1000 "g") 400 ⟨[], 0⟩).emitted.length = 400 :=
  (c3_incremental_batches (List.replicate 1000 "g") (by rw [List.length_replicate])).2.1

/-! ### C7: the debounce combinator -/

/-- The debounced search handler run against a time-ordered list of input
events, with at most one pending timeout.  On each event the pending timeout
is cleared (`clearTimeout`) unless it already fired (its fire time is at or
before the arrival of the event, in which case its recompute is recorded
first), and a new timeout is scheduled `ms` after the event with that event
as argument; after the last event the pending timeout fires.  The returned
list holds the input value used by each recompute, in order. -/
def debounceRun (ms : Nat) :
    List (Nat × String) → Option (Nat × String) → List String
  | [], none => []
  | [], some (_, w) => [w]
  | (t, v) :: rest, none => debounceRun ms rest (some (t + ms, v))
  | (t, v) :: rest, some (tf, w) =>
    if tf ≤ t then w :: debounceRun ms rest (some (t + ms, v))
    else debounceRun ms rest (some (t + ms, v))

theorem debounceRun_pending (ms : Nat) :
    ∀ (rest : List (Nat × String)) (t : Nat) (v : String),
      List.Chain' (fun a b => b.1 < a.1 + ms) ((t, v) :: rest) →
      debounceRun ms rest (some (t + ms, v))
        = [(((t, v) :: rest).getLast (by simp)).2] := by
  intro rest
  induction rest with
  | nil => intro t v _; rfl
  | cons e rest2 ih =>
    intro t v hch
    cases e with
    | mk t2 v2 =>
      rw [List.chain'_cons] at hch
      rcases hch with ⟨hlt, hch2⟩
      have hnot : ¬ (t + ms ≤ t2) := by omega
      rw [show debounceRun ms ((t2, v2) :: rest2) (some (t + ms, v))
          = if t + ms ≤ t2 then v :: debounceRun ms rest2 (some (t2 + ms, v2))
            else debounceRun ms rest2 (some (t2 + ms, v2)) from rfl]
      rw [if_neg hnot, ih t2 v2 hch2]
      simp [List.getLast_cons]

/-- C7: every sequence of at least one search-input event in which each event
arrives strictly within the debounce window of its predecessor produces
exactly one recompute, and it uses the value of the last event; every pending
timeout is cancelled when the next event arrives before it fires. -/
theorem c7_debounce_single_recompute (ms : Nat) (evs : List (Nat × String))
    (hne : evs ≠ [])
    (hwin : List.Chain' (fun a b => b.1 < a.1 + ms) evs) :
    debounceRun ms evs none = [(evs.getLast hne).2] := by
  cases evs with
  | nil => exact absurd rfl hne
  | cons e rest =>
    cases e with
    | mk t v =>
      rw [show debounceRun ms ((t, v) :: rest) none
          = debounceRun ms rest (some (t + ms, v)) from rfl]
      exact debounceRun_pending ms rest t v hwin

/-- Three keystrokes, each 60 ms after the previous, against the 160 ms
debounce window of the source. -/
def demoEvents : List (Nat × String) := [(0, "m"), (60, "ma"), (120, "mar")]

theorem c7_debounce_single_recompute_witness :
    debounceRun 160 demoEvents none = ["mar"] :=
  (c7_debounce_single_recompute 160 demoEvents (by decide)
    (by norm_num [demoEvents, List.chain'_cons])).trans (by decide)

end Gamelist
